import Mathlib

/-!
Verification development for the NSGA-II population manager of the `llm4ad`
repository (`llm4ad/method/nsga2/population.py`).

Python floats that may be `±inf` are embedded as the extended rationals `ER`.
Candidates (`Function`, defined in `llm4ad/base/code.py`) are modelled from the
spec: an equality-comparable stringifiable representation plus `score`, `rank`
and `crowding` fields mutated only by the population manager.

The pymoo routines called by `register_function` (`NonDominatedSorting`,
`get_crowding_function("cd")`, `randomized_argsort`) are external library code;
they are modelled from the spec's description of them (standard Pareto
non-dominated sorting on the negated objective matrix, crowding distance with
infinite boundary values, descending argsort whose ties are broken by a random
permutation that is a deterministic function of the RNG seed).

Exceptions inside the `try` block of `register_function` are modelled by
`survivalStep` returning `none`; the concrete failure modes modelled are the
real ones of the numpy code: a `None` score in the pool, or a ragged
(non-rectangular) score matrix, both of which make `-np.array(objs)` raise.
-/

namespace NSGA2

/-- Extended rationals: embedding of python floats including `float('-inf')`
and `float('inf')`. -/
inductive ER where
  | negInf : ER
  | rat : Rat → ER
  | posInf : ER
deriving DecidableEq

instance : Inhabited ER := ⟨ER.rat 0⟩

/-- `a <= b` on python floats with infinities. -/
def ER.le : ER → ER → Bool
  | .negInf, _ => true
  | _, .posInf => true
  | .rat a, .rat b => decide (a ≤ b)
  | _, _ => false

/-- `a < b` on python floats with infinities. -/
def ER.lt (a b : ER) : Bool := !ER.le b a

/-- Unary minus on python floats with infinities. -/
def ER.neg : ER → ER
  | .negInf => .posInf
  | .posInf => .negInf
  | .rat q => .rat (-q)

/-- `np.isinf` on a single value. -/
def ER.isInf : ER → Bool
  | .rat _ => false
  | _ => true

/-- Addition (used only by the crowding-distance model; the `posInf + negInf`
case never arises there). -/
def ER.add : ER → ER → ER
  | .posInf, _ => .posInf
  | _, .posInf => .posInf
  | .negInf, _ => .negInf
  | _, .negInf => .negInf
  | .rat a, .rat b => .rat (a + b)

/-- Subtraction (crowding-distance model only). -/
def ER.sub (a b : ER) : ER := ER.add a b.neg

/-- Division (crowding-distance model only). -/
def ER.div : ER → ER → ER
  | .posInf, _ => .posInf
  | .negInf, _ => .negInf
  | .rat a, .rat b => .rat (a / b)
  | .rat _, _ => .rat 0

/-- Modelled from the spec: a Candidate (`Function` in `llm4ad/base/code.py`,
whose source is not part of the packaged sources).  Per the spec's data model
it carries an opaque stringifiable representation, a score vector that is
absent (`none`) until evaluated, and `rank` / `crowding` fields written by the
survival computation. -/
structure Function where
  repr : String
  score : Option (List ER)
  rank : Nat
  crowding : ER
deriving DecidableEq

instance : Inhabited Function := ⟨⟨"", none, 0, ER.rat 0⟩⟩

/-- The state of `Population` (`llm4ad/method/nsga2/population.py`):
`_population` (members), `_pop_size` (capacity), `_next_gen_pop` (pending)
and `_generation`. -/
structure Population where
  population : List Function
  pop_size : Nat
  next_gen_pop : List Function
  generation : Nat
deriving DecidableEq

/-- `Population.__init__` with `pop = None`. -/
def emptyPop (cap gen : Nat) : Population := ⟨[], cap, [], gen⟩

/-- The hard-coded invalid-score sentinel `[float('-inf'), float('-inf')]`
of `register_function`. -/
def sentinel : List ER := [ER.negInf, ER.negInf]

/-- One comparison of the duplicate scan:
`str(f) == str(func) or func.score == f.score`. -/
def sameFn (f func : Function) : Bool :=
  decide (f.repr = func.repr) || decide (func.score = f.score)

/-- `Population.has_duplicate_function`: scans `_population` then
`_next_gen_pop` for a representation or score match. -/
def has_duplicate_function (p : Population) (func : Function) : Bool :=
  p.population.any (fun f => sameFn f func) ||
    p.next_gen_pop.any (fun f => sameFn f func)

/-- Pointwise `<=` of two rows of the (minimisation-scale) objective matrix;
`false` when the rows have different lengths (numpy would have refused to
build such a matrix). -/
def allLe : List ER → List ER → Bool
  | [], [] => true
  | a :: as, b :: bs => ER.le a b && allLe as bs
  | _, _ => false

/-- Strictly-less in at least one coordinate. -/
def anyLt : List ER → List ER → Bool
  | a :: as, b :: bs => ER.lt a b || anyLt as bs
  | _, _ => false

/-- Pareto dominance on the minimisation scale (as used by pymoo's
non-dominated sorting on the negated matrix `F`): `a` dominates `b` iff `a`
is no worse in every dimension and strictly better in at least one. -/
def dominatesMin (a b : List ER) : Bool := allLe a b && anyLt a b

/-- Dominance of row `j` over row `i` inside the matrix `F`. -/
def domAt (F : List (List ER)) (j i : Nat) : Bool :=
  dominatesMin (F.getD j []) (F.getD i [])

/-- Stated from the claim's words, for comparison with the code path: on the
original maximisation (higher-is-better) scale, `a` dominates `b` iff `a`'s
score is no worse than `b`'s in every dimension and strictly better in at
least one. -/
def dominatesMaxSpec (a b : List ER) : Bool := allLe b a && anyLt b a

/-- Modelled from the spec: pymoo's fast non-dominated sorting
(`NonDominatedSorting().do`), peeling successive fronts of mutually
non-dominated indices.  `fuel` bounds the recursion; `peelFronts` supplies
fuel equal to the pool size, which is always enough. -/
def peelAux (F : List (List ER)) : Nat → List Nat → List (List Nat)
  | 0, _ => []
  | _ + 1, [] => []
  | fuel + 1, rem =>
    let f0 := rem.filter (fun i => !rem.any (fun j => domAt F j i))
    let rest := rem.filter (fun i => rem.any (fun j => domAt F j i))
    f0 :: peelAux F fuel rest

/-- All non-dominated fronts of the matrix `F`, in rank order. -/
def peelFronts (F : List (List ER)) : List (List Nat) :=
  peelAux F F.length (List.range F.length)

/-- Modelled from the spec: the `n_stop_if_ranked` truncation of
`NonDominatedSorting().do(F, n_stop_if_ranked=pop_size)` — fronts are emitted
until at least `cap` individuals have been ranked. -/
def stopRanked (cap : Nat) : List (List Nat) → List (List Nat)
  | [] => []
  | f :: rest =>
    f :: (if cap ≤ f.length then [] else stopRanked (cap - f.length) rest)

/-- Least element of a column (crowding-distance model only). -/
def erMin (l : List ER) : ER :=
  l.foldl (fun a b => if ER.le a b then a else b) ER.posInf

/-- Greatest element of a column (crowding-distance model only). -/
def erMax (l : List ER) : ER :=
  l.foldl (fun a b => if ER.le a b then b else a) ER.negInf

/-- Modelled from the spec: the per-objective contribution of value `v` in
objective `j` to a point's crowding distance — boundary points (carrying the
column minimum or maximum) get infinite distance, interior points get the
distance between their nearest neighbours normalised by the column range. -/
def objContrib (M : List (List ER)) (j : Nat) (v : ER) : ER :=
  let col := M.map (fun row => row.getD j default)
  if v = erMin col || v = erMax col then ER.posInf
  else
    ER.div (ER.sub (erMin (col.filter (fun w => ER.lt v w)))
                   (erMax (col.filter (fun w => ER.lt w v))))
           (ER.sub (erMax col) (erMin col))

/-- Modelled from the spec: pymoo's `get_crowding_function("cd")` — for each
point of the front matrix `M`, the normalised sum over objectives of the
distances to its nearest neighbours, infinite at the boundaries. -/
def crowdingCD (M : List (List ER)) : List ER :=
  M.map (fun row =>
    (List.range row.length).foldl
      (fun acc j => ER.add acc (objContrib M j (row.getD j default)))
      (ER.rat 0))

/-- Modelled from the spec: the random permutation drawn by
`randomized_argsort` from numpy's RNG — a deterministic function of the seed
(RNG state) producing a permutation of `0, …, n-1`. -/
def permOfSeed (seed n : Nat) : List Nat := (List.range n).rotate seed

/-- Stable insertion of an index into an index list kept ascending by `key`. -/
def insertByKey (key : Nat → ER) (i : Nat) : List Nat → List Nat
  | [] => [i]
  | j :: rest =>
    if ER.le (key i) (key j) then i :: j :: rest else j :: insertByKey key i rest

/-- Sort an index list ascending by `key` (insertion sort). -/
def sortByKey (key : Nat → ER) : List Nat → List Nat
  | [] => []
  | i :: rest => insertByKey key i (sortByKey key rest)

/-- Modelled from the spec: `randomized_argsort(vals, order='descending')` —
apply the random permutation, argsort ascending, flip: positions ordered by
descending value, ties broken by the permutation. -/
def argsortDesc (perm : List Nat) (vals : List ER) : List Nat :=
  (sortByKey (fun i => vals.getD i ER.negInf) perm).reverse

/-- The splitting-front truncation of `register_function`:
`I = randomized_argsort(crowding_of_front, order='descending'); I = I[:-n_remove]`.
Returns the retained positions within the front. -/
def truncateByCrowding (seed : Nat) (front : List Nat) (crowd : List ER)
    (n_remove : Nat) : List Nat :=
  (argsortDesc (permOfSeed seed front.length) crowd).take (front.length - n_remove)

/-- The survivor-accumulation loop `for k, front in enumerate(fronts)` of
`register_function`.  Accumulates `(pool index, rank, crowding)` triples: a
front is truncated by descending crowding distance when it would overflow the
capacity, and taken whole otherwise. -/
def walkFronts (cap seed : Nat) (F : List (List ER)) :
    List (List Nat) → Nat → List (Nat × Nat × ER) → List (Nat × Nat × ER)
  | [], _, acc => acc
  | front :: rest, k, acc =>
    let crowd := crowdingCD (front.map (fun i => F.getD i []))
    let keepPos :=
      if cap < acc.length + front.length then
        truncateByCrowding seed front crowd (acc.length + front.length - cap)
      else
        List.range front.length
    walkFronts cap seed F rest (k + 1)
      (acc ++ keepPos.map (fun j => (front.getD j 0, k, crowd.getD j ER.negInf)))

/-- Extract the scores of the pool, `objs = [ind.score for ind in pop]`;
a `None` score makes the subsequent numpy code raise, modelled as `none`. -/
def allScores : List Function → Option (List (List ER))
  | [] => some []
  | f :: fs =>
    match f.score, allScores fs with
    | some s, some rest => some (s :: rest)
    | _, _ => none

/-- `np.array` accepts only a rectangular matrix. -/
def rectangular : List (List ER) → Bool
  | [] => true
  | r :: rs => rs.all (fun s => s.length == r.length)

/-- Update a survivor with its assigned rank and crowding
(`pop[i].rank = k; pop[i].crowding = crowding_of_front[j]`). -/
def updateFn (pool : List Function) (t : Nat × Nat × ER) : Function :=
  { pool.getD t.1 default with rank := t.2.1, crowding := t.2.2 }

/-- The survival computation of `register_function` (lines 62–111): negate the
objective matrix, perform non-dominated sorting with early stopping, walk the
fronts accumulating survivors with crowding-distance truncation.  `none`
models an exception escaping to the `except` clause (a `None` score or a
ragged score matrix makes `-np.array(objs)` raise). -/
def survivalStep (seed cap : Nat) (pool : List Function) :
    Option (List Function) :=
  match allScores pool with
  | none => none
  | some objs =>
    if rectangular objs then
      let F := objs.map (fun row => row.map ER.neg)
      let fronts := stopRanked cap (peelFronts F)
      some ((walkFronts cap seed F fronts 0 []).map (updateFn pool))
    else none

/-- The candidate as it is placed into `_next_gen_pop`: an absent score is
replaced by the sentinel (lines 51–52), then a detected duplicate has its
score overwritten by the sentinel (lines 55–56). -/
def processedFunc (p : Population) (func : Function) : Function :=
  let f1 := if func.score = none then { func with score := some sentinel } else func
  if has_duplicate_function p f1 then { f1 with score := some sentinel } else f1

/-- `Population.register_function`.  The genuinely effectful python method is
embedded as a state transformer; `seed` is the numpy RNG state consumed by
`randomized_argsort`. -/
def register_function (seed : Nat) (p : Population) (func : Function) :
    Population :=
  if p.generation = 0 ∧ func.score = none then p
  else
    let f2 := processedFunc p func
    let next := p.next_gen_pop ++ [f2]
    if p.pop_size ≤ next.length then
      match survivalStep seed p.pop_size (p.population ++ next) with
      | some newPop =>
        { p with population := newPop, next_gen_pop := [],
                 generation := p.generation + 1 }
      | none => { p with next_gen_pop := next }
    else
      { p with next_gen_pop := next }

/-- A sequence of `register_function` calls, each with its RNG state. -/
def runRegs (p : Population) (inputs : List (Nat × Function)) : Population :=
  inputs.foldl (fun q sf => register_function sf.1 q sf.2) p

/-- `np.isinf(np.array(f.score)).any()` — validity filter of `selection`
(an absent score would make numpy raise; it never occurs in `_population`). -/
def isValidFunc (f : Function) : Bool :=
  match f.score with
  | some s => !s.any ER.isInf
  | none => false

/-- The `funcs` list of `Population.selection`. -/
def validMembers (p : Population) : List Function :=
  p.population.filter isValidFunc

/-- `Population.selection`.  The two distinct uniformly-drawn indices of
`np.random.choice(funcs, size=2, replace=False)` are the parameters `i`, `j`;
`none` models the `IndexError` raised by `funcs[0]` on an empty list. -/
def selection (p : Population) (i j : Nat) : Option Function :=
  let funcs := validMembers p
  if 1 < funcs.length then
    let a := funcs.getD i default
    let b := funcs.getD j default
    if a.rank < b.rank then some a
    else if b.rank < a.rank then some b
    else if ER.lt b.crowding a.crowding then some a
    else some b
  else funcs.get? 0

/-! ### Order lemmas for `ER` -/

theorem ER.le_refl (a : ER) : ER.le a a = true := by
  cases a <;> simp [ER.le]

theorem ER.le_trans {a b c : ER} (h1 : ER.le a b = true) (h2 : ER.le b c = true) :
    ER.le a c = true := by
  cases a <;> cases b <;> cases c <;>
    simp_all [ER.le] <;> exact h1.trans h2

theorem ER.le_total (a b : ER) : ER.le a b = true ∨ ER.le b a = true := by
  cases a <;> cases b <;> simp [ER.le]
  exact LinearOrder.le_total _ _

theorem ER.lt_self (a : ER) : ER.lt a a = false := by
  simp [ER.lt, ER.le_refl]

theorem ER.lt_of_lt_of_le {a b c : ER} (h1 : ER.lt a b = true)
    (h2 : ER.le b c = true) : ER.lt a c = true := by
  simp only [ER.lt, Bool.not_eq_true'] at h1 ⊢
  cases hca : ER.le c a with
  | false => rfl
  | true => exact absurd (ER.le_trans h2 hca) (by simp [h1])

theorem ER.le_neg (a b : ER) : ER.le a.neg b.neg = ER.le b a := by
  cases a <;> cases b <;> simp [ER.le, ER.neg]

theorem ER.lt_neg (a b : ER) : ER.lt a.neg b.neg = ER.lt b a := by
  simp [ER.lt, ER.le_neg]

/-! ### Dominance lemmas -/

theorem allLe_trans : ∀ {a b c : List ER}, allLe a b = true → allLe b c = true →
    allLe a c = true
  | [], [], [], _, _ => rfl
  | _ :: _, [], _, h1, _ => by simp [allLe] at h1
  | [], _ :: _, _, h1, _ => by simp [allLe] at h1
  | _ :: _, _ :: _, [], _, h2 => by simp [allLe] at h2
  | x :: xs, y :: ys, z :: zs, h1, h2 => by
    simp only [allLe, Bool.and_eq_true] at h1 h2 ⊢
    exact ⟨ER.le_trans h1.1 h2.1, allLe_trans h1.2 h2.2⟩

theorem anyLt_of_anyLt_allLe : ∀ {a b c : List ER}, anyLt a b = true →
    allLe b c = true → anyLt a c = true
  | [], _, _, h1, _ => by simp [anyLt] at h1
  | _ :: _, [], _, h1, _ => by simp [anyLt] at h1
  | _ :: _, _ :: _, [], _, h2 => by simp [allLe] at h2
  | x :: xs, y :: ys, z :: zs, h1, h2 => by
    simp only [anyLt, Bool.or_eq_true] at h1 ⊢
    simp only [allLe, Bool.and_eq_true] at h2
    rcases h1 with h1 | h1
    · exact Or.inl (ER.lt_of_lt_of_le h1 h2.1)
    · exact Or.inr (anyLt_of_anyLt_allLe h1 h2.2)

theorem anyLt_self : ∀ (a : List ER), anyLt a a = false
  | [] => rfl
  | x :: xs => by simp [anyLt, ER.lt_self, anyLt_self xs]

theorem dominatesMin_trans {a b c : List ER} (h1 : dominatesMin a b = true)
    (h2 : dominatesMin b c = true) : dominatesMin a c = true := by
  simp only [dominatesMin, Bool.and_eq_true] at h1 h2 ⊢
  exact ⟨allLe_trans h1.1 h2.1, anyLt_of_anyLt_allLe h1.2 h2.1⟩

theorem dominatesMin_self (a : List ER) : dominatesMin a a = false := by
  simp [dominatesMin, anyLt_self]

theorem allLe_neg : ∀ (a b : List ER),
    allLe (a.map ER.neg) (b.map ER.neg) = allLe b a
  | [], [] => rfl
  | _ :: _, [] => rfl
  | [], _ :: _ => rfl
  | x :: xs, y :: ys => by
    simp only [List.map_cons, allLe, ER.le_neg, allLe_neg xs ys]

theorem anyLt_neg : ∀ (a b : List ER),
    anyLt (a.map ER.neg) (b.map ER.neg) = anyLt b a
  | [], [] => rfl
  | _ :: _, [] => rfl
  | [], _ :: _ => rfl
  | x :: xs, y :: ys => by
    simp only [List.map_cons, anyLt, ER.lt_neg, anyLt_neg xs ys]

/-- Negating all score vectors and testing dominance on the minimisation scale
is the same as dominance on the original maximisation scale. -/
theorem dominatesMin_neg (a b : List ER) :
    dominatesMin (a.map ER.neg) (b.map ER.neg) = dominatesMaxSpec a b := by
  simp [dominatesMin, dominatesMaxSpec, allLe_neg, anyLt_neg]

/-! ### Existence of a non-dominated element -/

/-- Any nonempty finite list ordered by an irreflexive transitive boolean
relation contains an element not related-below by anything in the list. -/
theorem exists_min_aux {α : Type} (r : α → α → Bool)
    (hirr : ∀ a, r a a = false)
    (htr : ∀ a b c, r a b = true → r b c = true → r a c = true) :
    ∀ n (l : List α), l.length ≤ n → l ≠ [] →
      ∃ p ∈ l, ∀ q ∈ l, r q p = false := by
  intro n
  induction n with
  | zero =>
    intro l hlen hne
    cases l with
    | nil => exact absurd rfl hne
    | cons x xs => simp at hlen
  | succ n ih =>
    intro l hlen hne
    cases l with
    | nil => exact absurd rfl hne
    | cons x xs =>
      by_cases hS : xs.filter (fun q => r q x) = []
      · refine ⟨x, List.mem_cons_self x xs, ?_⟩
        intro q hq
        rcases List.mem_cons.mp hq with rfl | hq
        · exact hirr q
        · cases hrq : r q x with
          | false => rfl
          | true =>
            have hmem : q ∈ xs.filter (fun q => r q x) :=
              List.mem_filter.mpr ⟨hq, hrq⟩
            rw [hS] at hmem
            simp at hmem
      · have hlen' : (xs.filter (fun q => r q x)).length ≤ n := by
          have h1 := List.length_filter_le (fun q => r q x) xs
          have h2 : xs.length + 1 ≤ n + 1 := by simpa using hlen
          omega
        obtain ⟨m, hmS, hmin⟩ := ih (xs.filter (fun q => r q x)) hlen' hS
        have hmx : r m x = true := by
          have := (List.mem_filter.mp hmS).2
          simpa using this
        refine ⟨m, List.mem_cons_of_mem x (List.mem_filter.mp hmS).1, ?_⟩
        intro q hq
        rcases List.mem_cons.mp hq with rfl | hq
        · cases hqm : r q m with
          | false => rfl
          | true => exact absurd (htr q m q hqm hmx) (by simp [hirr q])
        · cases hqm : r q m with
          | false => rfl
          | true =>
            have hqx : r q x = true := htr q m x hqm hmx
            exact absurd (hmin q (List.mem_filter.mpr ⟨hq, by simp [hqx]⟩))
              (by simp [hqm])

theorem exists_min {α : Type} (r : α → α → Bool)
    (hirr : ∀ a, r a a = false)
    (htr : ∀ a b c, r a b = true → r b c = true → r a c = true)
    (l : List α) (hne : l ≠ []) : ∃ p ∈ l, ∀ q ∈ l, r q p = false :=
  exists_min_aux r hirr htr l.length l le_rfl hne

/-! ### Front-peeling lemmas -/

/-- Total number of indices across a list of fronts. -/
def sumLens (fs : List (List Nat)) : Nat := (fs.map List.length).sum

theorem sumLens_nil : sumLens [] = 0 := rfl

theorem sumLens_cons (f : List Nat) (fs : List (List Nat)) :
    sumLens (f :: fs) = f.length + sumLens fs := by
  simp [sumLens]

theorem length_filter_not_add {α : Type} (q : α → Bool) :
    ∀ l : List α,
      (l.filter fun a => !q a).length + (l.filter q).length = l.length
  | [] => rfl
  | x :: xs => by
    have ih := length_filter_not_add q xs
    cases hx : q x <;> simp [List.filter_cons, hx] <;> omega

theorem domAt_self_false (F : List (List ER)) (i : Nat) :
    domAt F i i = false := dominatesMin_self _

theorem domAt_trans (F : List (List ER)) {a b c : Nat}
    (h1 : domAt F a b = true) (h2 : domAt F b c = true) : domAt F a c = true :=
  dominatesMin_trans h1 h2

/-- With fuel at least the number of remaining indices, front peeling ranks
every remaining index: the emitted fronts' sizes sum to the pool size. -/
theorem peelAux_sum (F : List (List ER)) :
    ∀ fuel (rem : List Nat), rem.length ≤ fuel →
      sumLens (peelAux F fuel rem) = rem.length := by
  intro fuel
  induction fuel with
  | zero =>
    intro rem hlen
    cases rem with
    | nil => rfl
    | cons x xs => simp at hlen
  | succ fuel ih =>
    intro rem hlen
    cases hrem : rem with
    | nil => simp [peelAux, sumLens]
    | cons x xs =>
      subst hrem
      simp only [peelAux, sumLens_cons]
      have hpart := length_filter_not_add
        (fun i => (x :: xs).any (fun j => domAt F j i)) (x :: xs)
      obtain ⟨p, hp, hpmin⟩ := exists_min (fun i j => domAt F i j)
        (domAt_self_false F) (fun a b c => domAt_trans F) (x :: xs)
        (by simp)
      have hpfront : p ∈ (x :: xs).filter
          (fun i => !(x :: xs).any (fun j => domAt F j i)) := by
        refine List.mem_filter.mpr ⟨hp, ?_⟩
        simp only [Bool.not_eq_true', List.any_eq_false]
        intro j hj
        simp [hpmin j hj]
      have hfront_pos :
          0 < ((x :: xs).filter
            (fun i => !(x :: xs).any (fun j => domAt F j i))).length :=
        List.length_pos.mpr (List.ne_nil_of_mem hpfront)
      have hrest : ((x :: xs).filter
          (fun i => (x :: xs).any (fun j => domAt F j i))).length ≤ fuel := by
        have : (x :: xs).length ≤ fuel + 1 := hlen
        simp only [List.length_cons] at this
        omega
      rw [ih _ hrest]
      omega

/-- Every index inside any peeled front comes from the remaining index list. -/
theorem peelAux_mem (F : List (List ER)) :
    ∀ fuel (rem : List Nat) fr, fr ∈ peelAux F fuel rem →
      ∀ i ∈ fr, i ∈ rem := by
  intro fuel
  induction fuel with
  | zero => intro rem fr hfr; simp [peelAux] at hfr
  | succ fuel ih =>
    intro rem fr hfr i hi
    cases rem with
    | nil => simp [peelAux] at hfr
    | cons x xs =>
      simp only [peelAux, List.mem_cons] at hfr
      rcases hfr with rfl | hfr
      · exact (List.mem_filter.mp hi).1
      · exact (List.mem_filter.mp (ih _ _ hfr i hi)).1

theorem peelFronts_sum (F : List (List ER)) :
    sumLens (peelFronts F) = F.length := by
  simpa [peelFronts] using
    peelAux_sum F F.length (List.range F.length) (by simp)

theorem peelFronts_mem (F : List (List ER)) (fr : List Nat)
    (hfr : fr ∈ peelFronts F) : ∀ i ∈ fr, i < F.length := by
  intro i hi
  have := peelAux_mem F F.length (List.range F.length) fr hfr i hi
  simpa using this

/-! ### `n_stop_if_ranked` truncation lemmas -/

theorem stopRanked_sum_ge (cap : Nat) :
    ∀ fs : List (List Nat), min cap (sumLens fs) ≤ sumLens (stopRanked cap fs)
  | [] => by simp [stopRanked]
  | f :: rest => by
    simp only [stopRanked, sumLens_cons]
    by_cases hc : cap ≤ f.length
    · simp only [if_pos hc, sumLens_cons, sumLens_nil]
      omega
    · simp only [if_neg hc, sumLens_cons]
      have := stopRanked_sum_ge (cap - f.length) rest
      omega

theorem stopRanked_sum_le (cap : Nat) :
    ∀ fs : List (List Nat), sumLens (stopRanked cap fs) ≤ sumLens fs
  | [] => by simp [stopRanked]
  | f :: rest => by
    simp only [stopRanked, sumLens_cons]
    by_cases hc : cap ≤ f.length
    · simp only [if_pos hc, sumLens_cons, sumLens_nil]
      omega
    · simp only [if_neg hc, sumLens_cons]
      have := stopRanked_sum_le (cap - f.length) rest
      omega

theorem stopRanked_mem (cap : Nat) :
    ∀ (fs : List (List Nat)) fr, fr ∈ stopRanked cap fs → fr ∈ fs
  | [], fr, h => by simp [stopRanked] at h
  | f :: rest, fr, h => by
    simp only [stopRanked, List.mem_cons] at h
    rcases h with rfl | h
    · exact List.mem_cons_self _ _
    · by_cases hc : cap ≤ f.length
      · simp [if_pos hc] at h
      · simp only [if_neg hc] at h
        exact List.mem_cons_of_mem _ (stopRanked_mem _ rest fr h)

/-! ### Sorting / argsort lemmas -/

theorem length_insertByKey (key : Nat → ER) (i : Nat) :
    ∀ l : List Nat, (insertByKey key i l).length = l.length + 1
  | [] => rfl
  | j :: rest => by
    by_cases h : ER.le (key i) (key j) = true <;>
      simp [insertByKey, h, length_insertByKey key i rest]

theorem length_sortByKey (key : Nat → ER) :
    ∀ l : List Nat, (sortByKey key l).length = l.length
  | [] => rfl
  | i :: rest => by
    simp [sortByKey, length_insertByKey, length_sortByKey key rest]

theorem mem_insertByKey (key : Nat → ER) (i x : Nat) :
    ∀ l : List Nat, (x ∈ insertByKey key i l ↔ x = i ∨ x ∈ l)
  | [] => by simp [insertByKey]
  | j :: rest => by
    by_cases h : ER.le (key i) (key j) = true <;>
      simp [insertByKey, h, mem_insertByKey key i x rest] <;> tauto

theorem mem_sortByKey (key : Nat → ER) (x : Nat) :
    ∀ l : List Nat, (x ∈ sortByKey key l ↔ x ∈ l)
  | [] => Iff.rfl
  | i :: rest => by
    simp [sortByKey, mem_insertByKey, mem_sortByKey key x rest]

theorem pairwise_insertByKey (key : Nat → ER) (i : Nat) (l : List Nat)
    (hl : l.Pairwise (fun a b => ER.le (key a) (key b) = true)) :
    (insertByKey key i l).Pairwise (fun a b => ER.le (key a) (key b) = true) := by
  induction l with
  | nil => simp [insertByKey]
  | cons j rest ih =>
    rcases List.pairwise_cons.mp hl with ⟨hj, hrest⟩
    by_cases h : ER.le (key i) (key j) = true
    · simp only [insertByKey, if_pos h]
      refine List.pairwise_cons.mpr ⟨?_, hl⟩
      intro b hb
      rcases List.mem_cons.mp hb with rfl | hb
      · exact h
      · exact ER.le_trans h (hj b hb)
    · simp only [insertByKey, if_neg h]
      refine List.pairwise_cons.mpr ⟨?_, ih hrest⟩
      intro b hb
      rcases (mem_insertByKey key i b rest).mp hb with rfl | hb
      · rcases ER.le_total (key b) (key j) with hle | hle
        · exact absurd hle h
        · exact hle
      · exact hj b hb

theorem pairwise_sortByKey (key : Nat → ER) :
    ∀ l : List Nat,
      (sortByKey key l).Pairwise (fun a b => ER.le (key a) (key b) = true)
  | [] => List.Pairwise.nil
  | i :: rest => pairwise_insertByKey key i _ (pairwise_sortByKey key rest)

theorem length_argsortDesc (perm : List Nat) (vals : List ER) :
    (argsortDesc perm vals).length = perm.length := by
  simp [argsortDesc, length_sortByKey]

theorem mem_argsortDesc (perm : List Nat) (vals : List ER) (x : Nat) :
    x ∈ argsortDesc perm vals ↔ x ∈ perm := by
  simp [argsortDesc, mem_sortByKey]

/-- The descending argsort is ordered by descending value. -/
theorem pairwise_argsortDesc (perm : List Nat) (vals : List ER) :
    (argsortDesc perm vals).Pairwise
      (fun a b => ER.le (vals.getD b ER.negInf) (vals.getD a ER.negInf) = true) := by
  rw [argsortDesc, List.pairwise_reverse]
  exact pairwise_sortByKey _ perm

theorem length_permOfSeed (seed n : Nat) : (permOfSeed seed n).length = n := by
  simp [permOfSeed]

theorem mem_permOfSeed (seed n x : Nat) : x ∈ permOfSeed seed n ↔ x < n := by
  simp [permOfSeed, List.mem_rotate]

theorem length_truncateByCrowding (seed : Nat) (front : List Nat)
    (crowd : List ER) (n_remove : Nat) :
    (truncateByCrowding seed front crowd n_remove).length =
      front.length - n_remove := by
  simp only [truncateByCrowding, List.length_take, length_argsortDesc,
    length_permOfSeed]
  omega

theorem mem_truncateByCrowding (seed : Nat) (front : List Nat)
    (crowd : List ER) (n_remove : Nat) (x : Nat)
    (hx : x ∈ truncateByCrowding seed front crowd n_remove) :
    x < front.length := by
  have := List.mem_of_mem_take hx
  rw [mem_argsortDesc, mem_permOfSeed] at this
  exact this

/-! ### Survivor-walk lemmas -/

theorem walkFronts_length (cap seed : Nat) (F : List (List ER)) :
    ∀ (fronts : List (List Nat)) (k : Nat) (acc : List (Nat × Nat × ER)),
      acc.length ≤ cap →
      (walkFronts cap seed F fronts k acc).length =
        min cap (acc.length + sumLens fronts) := by
  intro fronts
  induction fronts with
  | nil =>
    intro k acc hacc
    simp only [walkFronts, sumLens_nil]
    omega
  | cons front rest ih =>
    intro k acc hacc
    simp only [walkFronts, sumLens_cons]
    by_cases hover : cap < acc.length + front.length
    · rw [if_pos hover]
      rw [ih _ _ (by
        simp only [List.length_append, List.length_map,
          length_truncateByCrowding]
        omega)]
      simp only [List.length_append, List.length_map, length_truncateByCrowding]
      omega
    · rw [if_neg hover]
      rw [ih _ _ (by
        simp only [List.length_append, List.length_map, List.length_range]
        omega)]
      simp only [List.length_append, List.length_map, List.length_range]
      omega

/-- Every pool index accumulated by the survivor walk is in range, provided
the fronts' indices are. -/
theorem walkFronts_mem_lt (cap seed : Nat) (F : List (List ER)) (n : Nat) :
    ∀ (fronts : List (List Nat)) (k : Nat) (acc : List (Nat × Nat × ER)),
      (∀ fr ∈ fronts, ∀ i ∈ fr, i < n) →
      (∀ t ∈ acc, t.1 < n) →
      ∀ t ∈ walkFronts cap seed F fronts k acc, t.1 < n := by
  intro fronts
  induction fronts with
  | nil => intro k acc _ hacc t ht; exact hacc t ht
  | cons front rest ih =>
    intro k acc hfronts hacc t ht
    simp only [walkFronts] at ht
    refine ih _ _ (fun fr hfr => hfronts fr (List.mem_cons_of_mem _ hfr)) ?_ t ht
    intro u hu
    rcases List.mem_append.mp hu with hu | hu
    · exact hacc u hu
    · obtain ⟨j, hj, rfl⟩ := List.mem_map.mp hu
      have hjlt : j < front.length := by
        by_cases hover : cap < acc.length + front.length
        · rw [if_pos hover] at hj
          exact mem_truncateByCrowding _ _ _ _ _ hj
        · rw [if_neg hover] at hj
          exact List.mem_range.mp hj
      have hmem : front.getD j 0 ∈ front := by
        rw [List.getD_eq_getElem front 0 hjlt]
        exact List.getElem_mem hjlt
      exact hfronts front (List.mem_cons_self _ _) _ hmem

/-! ### `survivalStep` lemmas -/

theorem allScores_length : ∀ {pool : List Function} {objs : List (List ER)},
    allScores pool = some objs → objs.length = pool.length := by
  intro pool
  induction pool with
  | nil => intro objs h; simp [allScores] at h; simp [← h]
  | cons f fs ih =>
    intro objs h
    simp only [allScores] at h
    cases hs : f.score with
    | none => rw [hs] at h; simp at h
    | some s =>
      rw [hs] at h
      cases hrest : allScores fs with
      | none => rw [hrest] at h; simp at h
      | some rest =>
        rw [hrest] at h
        simp only [Option.some.injEq] at h
        subst h
        simp [ih hrest]

theorem allScores_of_forall : ∀ {pool : List Function},
    (∀ f ∈ pool, ∃ s, f.score = some s) →
    ∃ objs, allScores pool = some objs ∧
      ∀ s ∈ objs, ∃ f ∈ pool, f.score = some s := by
  intro pool
  induction pool with
  | nil => intro _; exact ⟨[], rfl, by simp⟩
  | cons f fs ih =>
    intro h
    obtain ⟨s, hs⟩ := h f (List.mem_cons_self _ _)
    obtain ⟨rest, hrest, hmemr⟩ := ih (fun g hg => h g (List.mem_cons_of_mem _ hg))
    refine ⟨s :: rest, ?_, ?_⟩
    · simp only [allScores, hs, hrest]
    · intro t ht
      rcases List.mem_cons.mp ht with rfl | ht
      · exact ⟨f, List.mem_cons_self _ _, hs⟩
      · obtain ⟨g, hg, hgs⟩ := hmemr t ht
        exact ⟨g, List.mem_cons_of_mem _ hg, hgs⟩

/-- A completed survival computation produces exactly
`min capacity (pool size)` survivors. -/
theorem survivalStep_length {seed cap : Nat} {pool newPop : List Function}
    (h : survivalStep seed cap pool = some newPop) :
    newPop.length = min cap pool.length := by
  unfold survivalStep at h
  cases hsc : allScores pool with
  | none => rw [hsc] at h; simp at h
  | some objs =>
    simp only [hsc] at h
    by_cases hrect : rectangular objs = true
    · simp only [if_pos hrect, Option.some.injEq] at h
      subst h
      have hlen := allScores_length hsc
      set F := objs.map (fun row => row.map ER.neg) with hF
      have hFlen : F.length = pool.length := by simp [hF, hlen]
      have hsumAll : sumLens (peelFronts F) = pool.length := by
        rw [peelFronts_sum, hFlen]
      have hge := stopRanked_sum_ge cap (peelFronts F)
      have hle := stopRanked_sum_le cap (peelFronts F)
      rw [hsumAll] at hge hle
      rw [List.length_map,
        walkFronts_length cap seed F (stopRanked cap (peelFronts F)) 0 []
          (by simp)]
      simp only [List.length_nil, Nat.zero_add]
      omega
    · simp only [if_neg hrect] at h
      exact absurd h (by simp)

/-- A pool whose members all carry `some` score of one common length makes the
survival computation complete, and every survivor's score is the score of a
pool member. -/
theorem survivalStep_completes {seed cap : Nat} {pool : List Function} {d : Nat}
    (hwf : ∀ f ∈ pool, ∃ s, f.score = some s ∧ s.length = d) :
    ∃ newPop, survivalStep seed cap pool = some newPop ∧
      ∀ g ∈ newPop, ∃ f ∈ pool, g.score = f.score := by
  obtain ⟨objs, hobjs, hmemo⟩ := allScores_of_forall
    (fun f hf => (hwf f hf).imp (fun s hs => hs.1))
  have hrowlen : ∀ s ∈ objs, s.length = d := by
    intro s hs
    obtain ⟨f, hf, hfs⟩ := hmemo s hs
    obtain ⟨t, ht, htl⟩ := hwf f hf
    rw [hfs] at ht
    cases Option.some.inj ht
    exact htl
  have hrect : rectangular objs = true := by
    cases hobjscases : objs with
    | nil => rfl
    | cons r rs =>
      simp only [rectangular, List.all_eq_true]
      intro s hs
      rw [hrowlen s (by rw [hobjscases]; exact List.mem_cons_of_mem _ hs),
        hrowlen r (by rw [hobjscases]; exact List.mem_cons_self _ _)]
      exact beq_self_eq_true _
  have hstep : survivalStep seed cap pool =
      some ((walkFronts cap seed (objs.map (fun row => row.map ER.neg))
        (stopRanked cap (peelFronts (objs.map (fun row => row.map ER.neg))))
        0 []).map (updateFn pool)) := by
    simp only [survivalStep, hobjs, if_pos hrect]
  refine ⟨_, hstep, ?_⟩
  intro g hg
  obtain ⟨t, ht, rfl⟩ := List.mem_map.mp hg
  have hlen := allScores_length hobjs
  have htlt : t.1 < pool.length := by
    refine walkFronts_mem_lt _ _ _ pool.length _ 0 [] ?_ (by simp) t ht
    intro fr hfr i hi
    have := peelFronts_mem _ fr (stopRanked_mem _ _ fr hfr) i hi
    simpa [hlen] using this
  have hpmem : pool.getD t.1 default ∈ pool := by
    rw [List.getD_eq_getElem pool default htlt]
    exact List.getElem_mem htlt
  exact ⟨pool.getD t.1 default, hpmem, rfl⟩

/-! ### `register_function` case analysis -/

/-- The three observable outcomes of one `register_function` call: early
discard (generation 0 with absent score), completed survival, or plain append
(no trigger, or survival aborted by an exception). -/
theorem register_function_eq (seed : Nat) (p : Population) (func : Function) :
    register_function seed p func =
      if p.generation = 0 ∧ func.score = none then p
      else if p.pop_size ≤ p.next_gen_pop.length + 1 then
        match survivalStep seed p.pop_size
            (p.population ++ (p.next_gen_pop ++ [processedFunc p func])) with
        | some newPop =>
          { p with population := newPop, next_gen_pop := [],
                   generation := p.generation + 1 }
        | none =>
          { p with next_gen_pop := p.next_gen_pop ++ [processedFunc p func] }
      else { p with next_gen_pop := p.next_gen_pop ++ [processedFunc p func] } := by
  unfold register_function
  by_cases h0 : p.generation = 0 ∧ func.score = none
  · simp [h0]
  · simp only [if_neg h0, List.length_append, List.length_cons, List.length_nil]

theorem register_function_pop_size (seed : Nat) (p : Population)
    (func : Function) :
    (register_function seed p func).pop_size = p.pop_size := by
  rw [register_function_eq]
  split
  · rfl
  · split
    · split <;> rfl
    · rfl

theorem register_function_generation_le (seed : Nat) (p : Population)
    (func : Function) :
    p.generation ≤ (register_function seed p func).generation := by
  rw [register_function_eq]
  split
  · exact le_rfl
  · split
    · split
      · exact Nat.le_succ _
      · exact le_rfl
    · exact le_rfl

theorem register_function_length_le (seed : Nat) (p : Population)
    (func : Function) (h : p.population.length ≤ p.pop_size) :
    (register_function seed p func).population.length ≤ p.pop_size := by
  rw [register_function_eq]
  split
  · exact h
  · split
    · split
      · next newPop heq =>
          have := survivalStep_length heq
          simp only []
          omega
      · exact h
    · exact h

theorem runRegs_pop_size (inputs : List (Nat × Function)) :
    ∀ p : Population, (runRegs p inputs).pop_size = p.pop_size := by
  induction inputs with
  | nil => intro p; rfl
  | cons sf rest ih =>
    intro p
    simp only [runRegs, List.foldl_cons] at ih ⊢
    rw [ih, register_function_pop_size]

theorem runRegs_length_le (inputs : List (Nat × Function)) :
    ∀ p : Population, p.population.length ≤ p.pop_size →
      (runRegs p inputs).population.length ≤ p.pop_size := by
  induction inputs with
  | nil => intro p h; exact h
  | cons sf rest ih =>
    intro p h
    simp only [runRegs, List.foldl_cons] at ih ⊢
    have h1 := register_function_length_le sf.1 p sf.2 h
    rw [← register_function_pop_size sf.1 p sf.2] at h1
    have := ih (register_function sf.1 p sf.2) h1
    rwa [register_function_pop_size] at this

/-- **C1.** For every sequence of `register_function` calls starting from an
empty population, `len(members) <= capacity` holds after every call returns;
and every survival computation that completes installs a members list of
length exactly `min(capacity, len(members) + len(pending))` (the combined
pool at the moment the computation starts). -/
theorem members_le_capacity :
    (∀ (cap gen : Nat) (inputs : List (Nat × Function)),
      (runRegs (emptyPop cap gen) inputs).population.length ≤ cap) ∧
    (∀ (seed cap : Nat) (pool newPop : List Function),
      survivalStep seed cap pool = some newPop →
      newPop.length = min cap pool.length) := by
  constructor
  · intro cap gen inputs
    exact runRegs_length_le inputs (emptyPop cap gen) (by simp [emptyPop])
  · intro seed cap pool newPop h
    exact survivalStep_length h

/-- Witness for C1 at concrete inputs: a two-slot run, and a completed
one-candidate survival computation. -/
theorem members_le_capacity_witness :
    (runRegs (emptyPop 2 0) [(0, ⟨"a", some [ER.rat 1], 0, ER.rat 0⟩)]).population.length ≤ 2 ∧
    ([⟨"a", some [ER.rat 5], 0, ER.posInf⟩] : List Function).length =
      min 1 ([(⟨"a", some [ER.rat 5], 0, ER.rat 0⟩ : Function)] : List Function).length :=
  ⟨members_le_capacity.1 2 0 [(0, ⟨"a", some [ER.rat 1], 0, ER.rat 0⟩)],
   members_le_capacity.2 0 1 [⟨"a", some [ER.rat 5], 0, ER.rat 0⟩]
     [⟨"a", some [ER.rat 5], 0, ER.posInf⟩] (by decide)⟩

theorem getD_map_neg (S : List (List ER)) (j : Nat) (hj : j < S.length) :
    (S.map (fun r => r.map ER.neg)).getD j [] = (S.getD j []).map ER.neg := by
  rw [List.getD_eq_getElem _ _ (by simpa using hj),
    List.getD_eq_getElem _ _ hj, List.getElem_map]

/-- Front 0 of the peeling is exactly the set of indices dominated by no
pool index. -/
theorem mem_front0 (F : List (List ER)) (hne : F ≠ []) (i : Nat) :
    (i ∈ (peelFronts F).headD []) ↔
      (i < F.length ∧ ∀ j, j < F.length → domAt F j i = false) := by
  have hn : 0 < F.length := List.length_pos.mpr hne
  obtain ⟨m, hfuel⟩ : ∃ m, F.length = m + 1 := ⟨F.length - 1, by omega⟩
  cases hr : List.range F.length with
  | nil =>
    rw [List.range_eq_nil] at hr
    exact absurd (hr ▸ hn) (lt_irrefl 0)
  | cons x xs =>
    have hpeel : peelFronts F =
        ((x :: xs).filter
          (fun i => !(x :: xs).any (fun j => domAt F j i))) ::
        peelAux F m ((x :: xs).filter
          (fun i => (x :: xs).any (fun j => domAt F j i))) := by
      rw [peelFronts, hr, hfuel]
      simp only [peelAux]
    rw [hpeel]
    simp only [List.headD_cons, List.mem_filter, Bool.not_eq_true',
      List.any_eq_false]
    constructor
    · rintro ⟨hmem, hnd⟩
      have hi : i < F.length := List.mem_range.mp (by rw [hr]; exact hmem)
      refine ⟨hi, fun j hj => ?_⟩
      have := hnd j (by rw [← hr]; exact List.mem_range.mpr hj)
      simpa using this
    · rintro ⟨hi, hall⟩
      refine ⟨by rw [← hr]; exact List.mem_range.mpr hi, fun j hjmem => ?_⟩
      have hj : j < F.length := List.mem_range.mp (by rw [hr]; exact hjmem)
      simpa using hall j hj

/-- **C2.** Front 0 of the non-dominated sorting over the pool is exactly the
set of candidates not dominated by any other pool candidate, where dominance
on the maximisation scale (no worse everywhere, strictly better somewhere) is
implemented by negating all score vectors and sorting on the minimisation
scale; on the pool (3,1), (1,3), (2,2), (0,0), front 0 is exactly
{(3,1), (1,3), (2,2)}. -/
theorem front0_nondominated :
    (∀ S : List (List ER), S ≠ [] → ∀ i : Nat,
      (i ∈ (peelFronts (S.map (fun r => r.map ER.neg))).headD []) ↔
        (i < S.length ∧ ∀ j, j < S.length →
          dominatesMaxSpec (S.getD j []) (S.getD i []) = false)) ∧
    (peelFronts
        ([[ER.rat 3, ER.rat 1], [ER.rat 1, ER.rat 3],
          [ER.rat 2, ER.rat 2], [ER.rat 0, ER.rat 0]].map
          (fun r => r.map ER.neg))).headD [] = [0, 1, 2] := by
  constructor
  · intro S hS i
    have hne : S.map (fun r => r.map ER.neg) ≠ [] := by simpa using hS
    rw [mem_front0 _ hne i]
    simp only [List.length_map]
    constructor
    · rintro ⟨hi, hall⟩
      refine ⟨hi, fun j hj => ?_⟩
      have := hall j hj
      simp only [domAt] at this
      rw [getD_map_neg S j hj, getD_map_neg S i hi, dominatesMin_neg] at this
      exact this
    · rintro ⟨hi, hall⟩
      refine ⟨hi, fun j hj => ?_⟩
      simp only [domAt]
      rw [getD_map_neg S j hj, getD_map_neg S i hi, dominatesMin_neg]
      exact hall j hj
  · decide

/-- Witness for C2 at the spec's concrete pool: index 0 (score (3,1)) is in
front 0 iff it is non-dominated. -/
theorem front0_nondominated_witness :
    (0 ∈ (peelFronts
        ([[ER.rat 3, ER.rat 1], [ER.rat 1, ER.rat 3],
          [ER.rat 2, ER.rat 2], [ER.rat 0, ER.rat 0]].map
          (fun r => r.map ER.neg))).headD []) ↔
      (0 < ([[ER.rat 3, ER.rat 1], [ER.rat 1, ER.rat 3],
          [ER.rat 2, ER.rat 2], [ER.rat 0, ER.rat 0]] : List (List ER)).length ∧
        ∀ j, j < ([[ER.rat 3, ER.rat 1], [ER.rat 1, ER.rat 3],
          [ER.rat 2, ER.rat 2], [ER.rat 0, ER.rat 0]] : List (List ER)).length →
          dominatesMaxSpec
            (([[ER.rat 3, ER.rat 1], [ER.rat 1, ER.rat 3],
              [ER.rat 2, ER.rat 2], [ER.rat 0, ER.rat 0]] : List (List ER)).getD j [])
            (([[ER.rat 3, ER.rat 1], [ER.rat 1, ER.rat 3],
              [ER.rat 2, ER.rat 2], [ER.rat 0, ER.rat 0]] : List (List ER)).getD 0 []) = false) :=
  front0_nondominated.1 _ (by decide) 0

/-- **C3.** When the survivors so far plus the current front would exceed
capacity, the front's positions are ordered by descending crowding distance
(ties broken by the seed's permutation) and exactly `capacity - survivors so
far` of the highest-crowding positions are retained: every retained position's
crowding is at least every discarded position's.  The retention is a pure
function of the front, the crowding values and the RNG seed, so two runs on
identical inputs with the same seed retain the same survivors. -/
theorem truncation_by_crowding (seed nSurv cap : Nat) (front : List Nat)
    (crowd : List ER)
    (hover : cap < nSurv + front.length) (hle : nSurv ≤ cap) :
    (truncateByCrowding seed front crowd (nSurv + front.length - cap)).length
        = cap - nSurv ∧
    (argsortDesc (permOfSeed seed front.length) crowd).Pairwise
      (fun a b =>
        ER.le (crowd.getD b ER.negInf) (crowd.getD a ER.negInf) = true) ∧
    (∀ a ∈ truncateByCrowding seed front crowd (nSurv + front.length - cap),
      ∀ b ∈ (argsortDesc (permOfSeed seed front.length) crowd).drop
        (front.length - (nSurv + front.length - cap)),
      ER.le (crowd.getD b ER.negInf) (crowd.getD a ER.negInf) = true) ∧
    (∀ seed2 front2 crowd2, seed2 = seed → front2 = front → crowd2 = crowd →
      truncateByCrowding seed2 front2 crowd2 (nSurv + front.length - cap) =
        truncateByCrowding seed front crowd (nSurv + front.length - cap)) := by
  refine ⟨?_, pairwise_argsortDesc _ _, ?_, ?_⟩
  · rw [length_truncateByCrowding]
    omega
  · intro a ha b hb
    have hp := pairwise_argsortDesc (permOfSeed seed front.length) crowd
    rw [← List.take_append_drop
      (front.length - (nSurv + front.length - cap))
      (argsortDesc (permOfSeed seed front.length) crowd)] at hp
    exact (List.pairwise_append.mp hp).2.2 a ha b hb
  · intro seed2 front2 crowd2 h1 h2 h3
    rw [h1, h2, h3]

/-- Witness for C3: capacity 2 with 1 survivor so far and a front of two
positions with crowding 1 and 2 — position 1 (crowding 2) is retained. -/
theorem truncation_by_crowding_witness :
    (truncateByCrowding 0 [5, 6] [ER.rat 1, ER.rat 2] (1 + [5, 6].length - 2)).length
        = 2 - 1 ∧
    (argsortDesc (permOfSeed 0 [5, 6].length) [ER.rat 1, ER.rat 2]).Pairwise
      (fun a b =>
        ER.le ([ER.rat 1, ER.rat 2].getD b ER.negInf)
          ([ER.rat 1, ER.rat 2].getD a ER.negInf) = true) ∧
    (∀ a ∈ truncateByCrowding 0 [5, 6] [ER.rat 1, ER.rat 2]
        (1 + [5, 6].length - 2),
      ∀ b ∈ (argsortDesc (permOfSeed 0 [5, 6].length)
          [ER.rat 1, ER.rat 2]).drop ([5, 6].length - (1 + [5, 6].length - 2)),
      ER.le ([ER.rat 1, ER.rat 2].getD b ER.negInf)
        ([ER.rat 1, ER.rat 2].getD a ER.negInf) = true) ∧
    (∀ seed2 front2 crowd2, seed2 = 0 → front2 = [5, 6] →
      crowd2 = [ER.rat 1, ER.rat 2] →
      truncateByCrowding seed2 front2 crowd2 (1 + [5, 6].length - 2) =
        truncateByCrowding 0 [5, 6] [ER.rat 1, ER.rat 2]
          (1 + [5, 6].length - 2)) :=
  truncation_by_crowding 0 1 2 [5, 6] [ER.rat 1, ER.rat 2]
    (by decide) (by decide)

/-- **C4.** A candidate counts as a duplicate iff its stringified
representation or its score vector matches some candidate already in members
or pending; a duplicate's score is overwritten with the sentinel and the
candidate is still appended to pending (the insertion count is unchanged). -/
theorem duplicate_neutralized (p : Population) (func : Function) :
    (has_duplicate_function p func = true ↔
      ∃ f, (f ∈ p.population ∨ f ∈ p.next_gen_pop) ∧
        (f.repr = func.repr ∨ func.score = f.score)) ∧
    (∀ seed, func.score ≠ none →
      p.next_gen_pop.length + 1 < p.pop_size →
      (register_function seed p func).next_gen_pop =
        p.next_gen_pop ++
          [if has_duplicate_function p func
           then { func with score := some sentinel } else func] ∧
      (register_function seed p func).population = p.population ∧
      (register_function seed p func).generation = p.generation) := by
  constructor
  · simp only [has_duplicate_function, sameFn, Bool.or_eq_true,
      List.any_eq_true, decide_eq_true_eq]
    constructor
    · rintro (⟨f, hf, hcase⟩ | ⟨f, hf, hcase⟩)
      · exact ⟨f, Or.inl hf, hcase⟩
      · exact ⟨f, Or.inr hf, hcase⟩
    · rintro ⟨f, hf | hf, hcase⟩
      · exact Or.inl ⟨f, hf, hcase⟩
      · exact Or.inr ⟨f, hf, hcase⟩
  · intro seed hscore htrig
    have hproc : processedFunc p func =
        if has_duplicate_function p func
        then { func with score := some sentinel } else func := by
      simp [processedFunc, hscore]
    rw [register_function_eq, if_neg (by simp [hscore]),
      if_neg (by omega), hproc]
    exact ⟨rfl, rfl, rfl⟩

/-- Witness for C4: a population holding one scored member, capacity 3, and a
new candidate that duplicates it by score alone. -/
theorem duplicate_neutralized_witness :
    (has_duplicate_function
        ⟨[⟨"x", some [ER.rat 1, ER.rat 2], 0, ER.rat 0⟩], 3, [], 1⟩
        ⟨"y", some [ER.rat 1, ER.rat 2], 0, ER.rat 0⟩ = true ↔
      ∃ f, (f ∈ ([⟨"x", some [ER.rat 1, ER.rat 2], 0, ER.rat 0⟩] :
              List Function) ∨ f ∈ ([] : List Function)) ∧
        (f.repr = "y" ∨
          (some [ER.rat 1, ER.rat 2] : Option (List ER)) = f.score)) ∧
    ((register_function 0
        ⟨[⟨"x", some [ER.rat 1, ER.rat 2], 0, ER.rat 0⟩], 3, [], 1⟩
        ⟨"y", some [ER.rat 1, ER.rat 2], 0, ER.rat 0⟩).next_gen_pop =
      [] ++
        [if has_duplicate_function
            ⟨[⟨"x", some [ER.rat 1, ER.rat 2], 0, ER.rat 0⟩], 3, [], 1⟩
            ⟨"y", some [ER.rat 1, ER.rat 2], 0, ER.rat 0⟩
         then { (⟨"y", some [ER.rat 1, ER.rat 2], 0, ER.rat 0⟩ : Function)
                  with score := some sentinel }
         else ⟨"y", some [ER.rat 1, ER.rat 2], 0, ER.rat 0⟩] ∧
      (register_function 0
        ⟨[⟨"x", some [ER.rat 1, ER.rat 2], 0, ER.rat 0⟩], 3, [], 1⟩
        ⟨"y", some [ER.rat 1, ER.rat 2], 0, ER.rat 0⟩).population =
        [⟨"x", some [ER.rat 1, ER.rat 2], 0, ER.rat 0⟩] ∧
      (register_function 0
        ⟨[⟨"x", some [ER.rat 1, ER.rat 2], 0, ER.rat 0⟩], 3, [], 1⟩
        ⟨"y", some [ER.rat 1, ER.rat 2], 0, ER.rat 0⟩).generation = 1) :=
  ⟨(duplicate_neutralized _ _).1,
   (duplicate_neutralized _ _).2 0 (by decide) (by decide)⟩

/-- **C5 (amended).** A `None`-scored candidate is discarded at generation 0
(state unchanged); after generation 0 it is accepted into pending with its
score set to the sentinel invalid vector — which is the fixed two-dimensional
vector `[-inf, -inf]` regardless of the run's objective dimensionality. -/
theorem none_score_paths (seed : Nat) (p : Population) (func : Function)
    (hnone : func.score = none) :
    (p.generation = 0 → register_function seed p func = p) ∧
    (p.generation ≠ 0 → p.next_gen_pop.length + 1 < p.pop_size →
      (register_function seed p func).next_gen_pop =
        p.next_gen_pop ++ [{ func with score := some sentinel }] ∧
      (register_function seed p func).population = p.population ∧
      sentinel = [ER.negInf, ER.negInf]) := by
  constructor
  · intro h0
    rw [register_function_eq, if_pos ⟨h0, hnone⟩]
  · intro h0 htrig
    have hproc : processedFunc p func = { func with score := some sentinel } := by
      simp only [processedFunc, hnone, if_pos]
      split <;> rfl
    rw [register_function_eq, if_neg (by tauto), if_neg (by omega), hproc]
    exact ⟨rfl, rfl, rfl⟩

/-- Witness for C5 (amended): a `None`-scored candidate at generation 0 is
dropped; the same candidate at generation 1 lands in pending carrying the
sentinel. -/
theorem none_score_paths_witness :
    (register_function 0 (emptyPop 3 0) ⟨"b", none, 0, ER.rat 0⟩ =
      emptyPop 3 0) ∧
    ((register_function 0 ⟨[], 3, [], 1⟩ ⟨"b", none, 0, ER.rat 0⟩).next_gen_pop =
      [] ++ [{ (⟨"b", none, 0, ER.rat 0⟩ : Function) with score := some sentinel }] ∧
     (register_function 0 ⟨[], 3, [], 1⟩ ⟨"b", none, 0, ER.rat 0⟩).population =
      [] ∧
     sentinel = [ER.negInf, ER.negInf]) :=
  ⟨(none_score_paths 0 (emptyPop 3 0) ⟨"b", none, 0, ER.rat 0⟩ rfl).1 rfl,
   (none_score_paths 0 ⟨[], 3, [], 1⟩ ⟨"b", none, 0, ER.rat 0⟩ rfl).2
     (by decide) (by decide)⟩

/-- Counterexample for C5 as stated: in a run whose objective dimensionality
is 3 (witnessed by the surviving member's 3-dimensional score), the
`None`-scored candidate registered at generation 1 receives the fixed
2-element sentinel — its length does not equal the run's dimensionality. -/
theorem sentinel_dimension_cex :
    (runRegs (emptyPop 1 0)
        [(0, ⟨"a", some [ER.rat 1, ER.rat 2, ER.rat 3], 0, ER.rat 0⟩),
         (0, ⟨"b", none, 0, ER.rat 0⟩)]).next_gen_pop.map
        (fun f => (f.score.getD []).length) = [2] ∧
    (runRegs (emptyPop 1 0)
        [(0, ⟨"a", some [ER.rat 1, ER.rat 2, ER.rat 3], 0, ER.rat 0⟩),
         (0, ⟨"b", none, 0, ER.rat 0⟩)]).population.map
        (fun f => (f.score.getD []).length) = [3] ∧
    (runRegs (emptyPop 1 0)
        [(0, ⟨"a", some [ER.rat 1, ER.rat 2, ER.rat 3], 0, ER.rat 0⟩),
         (0, ⟨"b", none, 0, ER.rat 0⟩)]).generation = 1 := by
  decide

/-- **C6.** If an exception is raised during the survival computation, the
call returns normally, the members list is unchanged (no partial update),
pending keeps accumulating — still containing the candidate appended by this
call — and the generation is not incremented. -/
theorem survival_failure_no_partial_update (seed : Nat) (p : Population)
    (func : Function)
    (hne : ¬(p.generation = 0 ∧ func.score = none))
    (hfail : survivalStep seed p.pop_size
        (p.population ++ (p.next_gen_pop ++ [processedFunc p func])) = none) :
    (register_function seed p func).population = p.population ∧
    (register_function seed p func).next_gen_pop =
      p.next_gen_pop ++ [processedFunc p func] ∧
    (register_function seed p func).generation = p.generation := by
  rw [register_function_eq, if_neg hne]
  by_cases htrig : p.pop_size ≤ p.next_gen_pop.length + 1
  · rw [if_pos htrig]
    simp [hfail]
  · rw [if_neg htrig]
    exact ⟨rfl, rfl, rfl⟩

/-- Witness for C6: a one-slot population at generation 1 holding a
3-objective member; registering a 2-objective candidate triggers a survival
computation over a ragged score matrix, which raises. -/
theorem survival_failure_witness :
    (register_function 0
        ⟨[⟨"a", some [ER.rat 1, ER.rat 2, ER.rat 3], 0, ER.rat 0⟩], 1, [], 1⟩
        ⟨"b", some [ER.rat 1, ER.rat 2], 0, ER.rat 0⟩).population =
      [⟨"a", some [ER.rat 1, ER.rat 2, ER.rat 3], 0, ER.rat 0⟩] ∧
    (register_function 0
        ⟨[⟨"a", some [ER.rat 1, ER.rat 2, ER.rat 3], 0, ER.rat 0⟩], 1, [], 1⟩
        ⟨"b", some [ER.rat 1, ER.rat 2], 0, ER.rat 0⟩).next_gen_pop =
      [] ++ [processedFunc
        ⟨[⟨"a", some [ER.rat 1, ER.rat 2, ER.rat 3], 0, ER.rat 0⟩], 1, [], 1⟩
        ⟨"b", some [ER.rat 1, ER.rat 2], 0, ER.rat 0⟩] ∧
    (register_function 0
        ⟨[⟨"a", some [ER.rat 1, ER.rat 2, ER.rat 3], 0, ER.rat 0⟩], 1, [], 1⟩
        ⟨"b", some [ER.rat 1, ER.rat 2], 0, ER.rat 0⟩).generation = 1 :=
  survival_failure_no_partial_update 0
    ⟨[⟨"a", some [ER.rat 1, ER.rat 2, ER.rat 3], 0, ER.rat 0⟩], 1, [], 1⟩
    ⟨"b", some [ER.rat 1, ER.rat 2], 0, ER.rat 0⟩
    (by decide) (by decide)

/-! ### Pending-buffer invariant -/

/-- A registered candidate whose score is absent or matches the sentinel's
dimensionality (the score dimensionality this NSGA-II code supports). -/
def wfScore (f : Function) : Bool :=
  match f.score with
  | none => true
  | some s => s.length == 2

/-- Every stored candidate carries a present, two-dimensional score. -/
def scoresWf (p : Population) : Prop :=
  ∀ f ∈ p.population ++ p.next_gen_pop, ∃ s, f.score = some s ∧ s.length = 2

theorem processedFunc_wf (p : Population) (func : Function)
    (hwfin : wfScore func = true) :
    ∃ s, (processedFunc p func).score = some s ∧ s.length = 2 := by
  simp only [processedFunc]
  split
  · split
    · exact ⟨sentinel, rfl, rfl⟩
    · exact ⟨sentinel, rfl, rfl⟩
  · next hnone =>
    obtain ⟨s, hs⟩ := Option.ne_none_iff_exists'.mp hnone
    have hlen : s.length = 2 := by
      simp only [wfScore, hs, beq_iff_eq] at hwfin
      exact hwfin
    split
    · exact ⟨sentinel, rfl, rfl⟩
    · exact ⟨s, hs, hlen⟩

theorem register_preserves_inv (seed : Nat) (p : Population) (func : Function)
    (hcap : 0 < p.pop_size)
    (hwfin : wfScore func = true)
    (hpend : p.next_gen_pop.length < p.pop_size)
    (hwf : scoresWf p) :
    (register_function seed p func).next_gen_pop.length < p.pop_size ∧
      scoresWf (register_function seed p func) := by
  by_cases hne : p.generation = 0 ∧ func.score = none
  · rw [register_function_eq, if_pos hne]
    exact ⟨hpend, hwf⟩
  · have hf2 := processedFunc_wf p func hwfin
    have hpool : ∀ f ∈ p.population ++ (p.next_gen_pop ++ [processedFunc p func]),
        ∃ s, f.score = some s ∧ s.length = 2 := by
      intro f hf
      rcases List.mem_append.mp hf with hf | hf
      · exact hwf f (List.mem_append.mpr (Or.inl hf))
      · rcases List.mem_append.mp hf with hf | hf
        · exact hwf f (List.mem_append.mpr (Or.inr hf))
        · rcases List.mem_singleton.mp hf with rfl
          exact hf2
    by_cases htrig : p.pop_size ≤ p.next_gen_pop.length + 1
    · obtain ⟨newPop, hstep, hmemsc⟩ :=
        @survivalStep_completes seed p.pop_size
          (p.population ++ (p.next_gen_pop ++ [processedFunc p func])) 2 hpool
      rw [register_function_eq, if_neg hne, if_pos htrig]
      simp only [hstep]
      refine ⟨by simpa using hcap, ?_⟩
      intro f hf
      simp only [List.append_nil] at hf
      obtain ⟨g, hg, hgs⟩ := hmemsc f hf
      obtain ⟨s, hs, hsl⟩ := hpool g hg
      exact ⟨s, by rw [hgs, hs], hsl⟩
    · rw [register_function_eq, if_neg hne, if_neg htrig]
      constructor
      · simp only [List.length_append, List.length_cons, List.length_nil]
        omega
      · intro f hf
        simp only [List.append_assoc] at hf
        exact hpool f hf

theorem runRegs_pending_inv (inputs : List (Nat × Function)) :
    ∀ p : Population, 0 < p.pop_size →
      (∀ sf ∈ inputs, wfScore sf.2 = true) →
      p.next_gen_pop.length < p.pop_size → scoresWf p →
      (runRegs p inputs).next_gen_pop.length < p.pop_size ∧
        scoresWf (runRegs p inputs) := by
  induction inputs with
  | nil => intro p _ _ hpend hwf; exact ⟨hpend, hwf⟩
  | cons sf rest ih =>
    intro p hcap hin hpend hwf
    simp only [runRegs, List.foldl_cons] at ih ⊢
    obtain ⟨h1, h2⟩ := register_preserves_inv sf.1 p sf.2 hcap
      (hin sf (List.mem_cons_self _ _)) hpend hwf
    have hps := register_function_pop_size sf.1 p sf.2
    have := ih (register_function sf.1 p sf.2) (by omega)
      (fun t ht => hin t (List.mem_cons_of_mem _ ht)) (by omega) h2
    rwa [hps] at this

/-- **C7 (amended).** Provided every registered candidate's score is absent or
has the sentinel's dimensionality — so that every triggered survival
computation completes — `len(pending) < capacity` holds after every
`register_function` call from an empty population; a call that does not make
pending reach capacity only appends, and a triggering call whose survival
computation completes resets pending to empty.  (Without that proviso the
bound fails: see the counterexample, where a failed survival computation
leaves pending at capacity.) -/
theorem pending_lt_capacity :
    (∀ cap gen (inputs : List (Nat × Function)), 0 < cap →
      (∀ sf ∈ inputs, wfScore sf.2 = true) →
      (runRegs (emptyPop cap gen) inputs).next_gen_pop.length < cap) ∧
    (∀ seed p func, ¬(p.generation = 0 ∧ func.score = none) →
      p.next_gen_pop.length + 1 < p.pop_size →
      register_function seed p func =
        { p with next_gen_pop := p.next_gen_pop ++ [processedFunc p func] }) ∧
    (∀ seed p func newPop, ¬(p.generation = 0 ∧ func.score = none) →
      p.pop_size ≤ p.next_gen_pop.length + 1 →
      survivalStep seed p.pop_size
        (p.population ++ (p.next_gen_pop ++ [processedFunc p func])) =
          some newPop →
      (register_function seed p func).next_gen_pop = []) := by
  refine ⟨?_, ?_, ?_⟩
  · intro cap gen inputs hcap hwf
    exact (runRegs_pending_inv inputs (emptyPop cap gen) hcap hwf
      (by simpa [emptyPop] using hcap) (by intro f hf; simp [emptyPop] at hf)).1
  · intro seed p func hne htrig
    rw [register_function_eq, if_neg hne, if_neg (by omega)]
  · intro seed p func newPop hne htrig hstep
    rw [register_function_eq, if_neg hne, if_pos htrig]
    simp only [hstep]

/-- Witness for C7 (amended): a capacity-2 run of one valid 2-objective
candidate; a non-triggering append; and a triggering call whose survival
computation completes and clears pending. -/
theorem pending_lt_capacity_witness :
    (runRegs (emptyPop 2 0)
        [(0, ⟨"a", some [ER.rat 1, ER.rat 2], 0, ER.rat 0⟩)]).next_gen_pop.length
      < 2 ∧
    register_function 0 (emptyPop 2 1) ⟨"a", some [ER.rat 1, ER.rat 2], 0, ER.rat 0⟩ =
      { emptyPop 2 1 with next_gen_pop :=
          [] ++ [processedFunc (emptyPop 2 1)
            ⟨"a", some [ER.rat 1, ER.rat 2], 0, ER.rat 0⟩] } ∧
    (register_function 0 (emptyPop 1 1)
        ⟨"a", some [ER.rat 5], 0, ER.rat 0⟩).next_gen_pop = [] :=
  ⟨pending_lt_capacity.1 2 0 [(0, ⟨"a", some [ER.rat 1, ER.rat 2], 0, ER.rat 0⟩)]
      (by decide) (by decide),
   pending_lt_capacity.2.1 0 (emptyPop 2 1)
      ⟨"a", some [ER.rat 1, ER.rat 2], 0, ER.rat 0⟩ (by decide) (by decide),
   pending_lt_capacity.2.2 0 (emptyPop 1 1) ⟨"a", some [ER.rat 5], 0, ER.rat 0⟩
      [⟨"a", some [ER.rat 5], 0, ER.posInf⟩] (by decide) (by decide) (by decide)⟩

/-- Counterexample for C7 as stated: a capacity-1 run in which the second
registration triggers a survival computation that raises (ragged score
matrix); after the call returns, pending holds 1 candidate, which is not
strictly below the capacity 1. -/
theorem pending_capacity_cex :
    ¬((runRegs (emptyPop 1 0)
        [(0, ⟨"a", some [ER.rat 1, ER.rat 2, ER.rat 3], 0, ER.rat 0⟩),
         (0, ⟨"b", none, 0, ER.rat 0⟩)]).next_gen_pop.length < 1) := by
  decide

/-! ### Selection lemmas -/

/-- Example member: rank 0, finite score. -/
def exF0 : Function := ⟨"f0", some [ER.rat 3, ER.rat 1], 0, ER.rat 5⟩

/-- Example member: rank 1, finite score. -/
def exF1 : Function := ⟨"f1", some [ER.rat 1, ER.rat 3], 1, ER.rat 7⟩

/-- Example member: invalid (sentinel) score. -/
def exFBad : Function := ⟨"bad", some sentinel, 0, ER.rat 0⟩

/-- Example population with two valid members and one invalid one. -/
def exPop : Population := ⟨[exF0, exF1, exFBad], 3, [], 1⟩

/-- Example population with no valid member. -/
def exPopBad : Population := ⟨[exFBad], 3, [], 1⟩

/-- **C8.** Parent selection considers only members whose score vector has no
infinite component; a single valid candidate is returned as is; with more
than one, two distinct drawn candidates are compared: lower rank wins, a rank
tie is decided by strictly higher crowding for the first-drawn candidate, and
otherwise the second-drawn candidate is returned. -/
theorem selection_tournament (p : Population) (i j : Nat)
    (hij : i ≠ j)
    (hi : i < (validMembers p).length) (hj : j < (validMembers p).length) :
    (∀ f, f ∈ validMembers p ↔ f ∈ p.population ∧ isValidFunc f = true) ∧
    (∀ f, validMembers p = [f] → selection p i j = some f) ∧
    (1 < (validMembers p).length →
      (((validMembers p).getD i default).rank <
          ((validMembers p).getD j default).rank →
        selection p i j = some ((validMembers p).getD i default)) ∧
      (((validMembers p).getD j default).rank <
          ((validMembers p).getD i default).rank →
        selection p i j = some ((validMembers p).getD j default)) ∧
      (((validMembers p).getD i default).rank =
          ((validMembers p).getD j default).rank →
        ER.lt ((validMembers p).getD j default).crowding
            ((validMembers p).getD i default).crowding = true →
        selection p i j = some ((validMembers p).getD i default)) ∧
      (((validMembers p).getD i default).rank =
          ((validMembers p).getD j default).rank →
        ER.lt ((validMembers p).getD j default).crowding
            ((validMembers p).getD i default).crowding = false →
        selection p i j = some ((validMembers p).getD j default))) := by
  refine ⟨fun f => List.mem_filter, ?_, ?_⟩
  · intro f hf
    simp [selection, hf]
  · intro hlen
    refine ⟨?_, ?_, ?_, ?_⟩
    · intro hab
      simp only [selection, if_pos hlen]
      rw [if_pos hab]
    · intro hba
      simp only [selection, if_pos hlen]
      rw [if_neg (by omega), if_pos hba]
    · intro heq hcr
      simp only [selection, if_pos hlen]
      rw [if_neg (by omega), if_neg (by omega), if_pos hcr]
    · intro heq hcr
      simp only [selection, if_pos hlen]
      rw [if_neg (by omega), if_neg (by omega),
        if_neg (by simp only [hcr]; exact Bool.false_ne_true)]

/-- Witness for C8 on the example population: indices 0 and 1 are in range
and distinct. -/
theorem selection_tournament_witness :
    (∀ f, f ∈ validMembers exPop ↔
        f ∈ exPop.population ∧ isValidFunc f = true) ∧
    (∀ f, validMembers exPop = [f] → selection exPop 0 1 = some f) ∧
    (1 < (validMembers exPop).length →
      (((validMembers exPop).getD 0 default).rank <
          ((validMembers exPop).getD 1 default).rank →
        selection exPop 0 1 = some ((validMembers exPop).getD 0 default)) ∧
      (((validMembers exPop).getD 1 default).rank <
          ((validMembers exPop).getD 0 default).rank →
        selection exPop 0 1 = some ((validMembers exPop).getD 1 default)) ∧
      (((validMembers exPop).getD 0 default).rank =
          ((validMembers exPop).getD 1 default).rank →
        ER.lt ((validMembers exPop).getD 1 default).crowding
            ((validMembers exPop).getD 0 default).crowding = true →
        selection exPop 0 1 = some ((validMembers exPop).getD 0 default)) ∧
      (((validMembers exPop).getD 0 default).rank =
          ((validMembers exPop).getD 1 default).rank →
        ER.lt ((validMembers exPop).getD 1 default).crowding
            ((validMembers exPop).getD 0 default).crowding = false →
        selection exPop 0 1 = some ((validMembers exPop).getD 1 default))) :=
  selection_tournament exPop 0 1 (by decide) (by decide) (by decide)

/-- **C9.** With zero valid candidates, selection reports an error to the
caller (the raised `IndexError` of `funcs[0]`, embedded as `none`) — it never
fabricates a candidate; with at least one valid candidate and in-range draws
it returns a valid member of the population. -/
theorem selection_no_valid_error (p : Population) (i j : Nat) :
    (validMembers p = [] → selection p i j = none) ∧
    (validMembers p ≠ [] → i < (validMembers p).length →
      j < (validMembers p).length →
      ∃ w, selection p i j = some w ∧ w ∈ p.population ∧
        isValidFunc w = true) := by
  constructor
  · intro hempty
    simp [selection, hempty]
  · intro hne hi hj
    by_cases hlen : 1 < (validMembers p).length
    · have hchoice : selection p i j =
          some ((validMembers p).getD i default) ∨
          selection p i j = some ((validMembers p).getD j default) := by
        simp only [selection, if_pos hlen]
        by_cases h1 : ((validMembers p).getD i default).rank <
            ((validMembers p).getD j default).rank
        · rw [if_pos h1]; exact Or.inl rfl
        · rw [if_neg h1]
          by_cases h2 : ((validMembers p).getD j default).rank <
              ((validMembers p).getD i default).rank
          · rw [if_pos h2]; exact Or.inr rfl
          · rw [if_neg h2]
            by_cases h3 : ER.lt ((validMembers p).getD j default).crowding
                ((validMembers p).getD i default).crowding = true
            · rw [if_pos h3]; exact Or.inl rfl
            · rw [if_neg h3]; exact Or.inr rfl
      have hmemi : (validMembers p).getD i default ∈ validMembers p := by
        rw [List.getD_eq_getElem _ default hi]
        exact List.getElem_mem hi
      have hmemj : (validMembers p).getD j default ∈ validMembers p := by
        rw [List.getD_eq_getElem _ default hj]
        exact List.getElem_mem hj
      rcases hchoice with hc | hc
      · obtain ⟨hm, hv⟩ := List.mem_filter.mp hmemi
        exact ⟨_, hc, hm, hv⟩
      · obtain ⟨hm, hv⟩ := List.mem_filter.mp hmemj
        exact ⟨_, hc, hm, hv⟩
    · obtain ⟨w, hw⟩ : ∃ w, validMembers p = [w] := by
        cases hvm : validMembers p with
        | nil => exact absurd hvm hne
        | cons w rest =>
          cases rest with
          | nil => exact ⟨w, rfl⟩
          | cons y ys =>
            rw [hvm] at hlen
            simp at hlen
      refine ⟨w, by simp [selection, hw], ?_⟩
      have hmem : w ∈ validMembers p := by rw [hw]; exact List.mem_cons_self _ _
      obtain ⟨hm, hv⟩ := List.mem_filter.mp hmem
      exact ⟨hm, hv⟩

/-- Witness for C9: the all-invalid population yields the error, and the
example population yields a valid winner. -/
theorem selection_no_valid_error_witness :
    (validMembers exPopBad = [] → selection exPopBad 0 1 = none) ∧
    (validMembers exPop ≠ [] → 0 < (validMembers exPop).length →
      1 < (validMembers exPop).length →
      ∃ w, selection exPop 0 1 = some w ∧ w ∈ exPop.population ∧
        isValidFunc w = true) :=
  ⟨(selection_no_valid_error exPopBad 0 1).1,
   (selection_no_valid_error exPop 0 1).2⟩

/-! ### Lock-usage model

The mutual-exclusion structure of `population.py` is a control-flow property,
embedded as the sequence of lock and population-state events each method
performs on each of its execution paths. -/

inductive PopEvent where
  | lockAcquire : PopEvent
  | lockRelease : PopEvent
  | readGeneration : PopEvent
  | readMembers : PopEvent
  | appendPending : PopEvent
  | commitSurvival : PopEvent
deriving DecidableEq

/-- The lock / population-state events of one `register_function` call on
each execution path: the generation test (line 47) runs before the lock;
`self._lock.acquire()` (line 54) opens the critical section; the duplicate
scan reads members and pending (line 55); the append to pending (line 58);
the commit of the survival computation (lines 111–113) happens only when the
call triggers one and no exception is raised; `self._lock.release()` runs in
the `finally` clause (line 118) on every non-early path, including when the
`except` clause swallowed an exception. -/
def registerEvents (earlyReturn triggers fails : Bool) : List PopEvent :=
  PopEvent.readGeneration ::
    (if earlyReturn then []
     else PopEvent.lockAcquire :: PopEvent.readMembers ::
       PopEvent.appendPending ::
       ((if triggers then (if fails then [] else [PopEvent.commitSurvival])
         else []) ++ [PopEvent.lockRelease]))

/-- The events of one `Population.selection` call: it reads
`self._population` (line 131) and never touches `self._lock`. -/
def selectionEvents : List PopEvent := [PopEvent.readMembers]

/-- Scoped-locking checker: scanning an event list while tracking the lock,
every population-state write must occur with the lock held, an acquire
requires the lock free, a release requires it held, and the lock is free
again when the call returns. -/
def scanLocked : Bool → List PopEvent → Bool
  | locked, [] => !locked
  | locked, e :: rest =>
    match e with
    | PopEvent.lockAcquire => !locked && scanLocked true rest
    | PopEvent.lockRelease => locked && scanLocked false rest
    | PopEvent.appendPending => locked && scanLocked locked rest
    | PopEvent.commitSurvival => locked && scanLocked locked rest
    | _ => scanLocked locked rest

/-- **C10 (amended).** `register_function` and the survival computation it
triggers perform all their population mutations inside one lock acquisition
that is released on every exit path, including the exception path — but
`selection` does not acquire the lock (see the counterexample). -/
theorem register_lock_scoped :
    ∀ earlyReturn triggers fails : Bool,
      scanLocked false (registerEvents earlyReturn triggers fails) = true := by
  intro a b c
  cases a <;> cases b <;> cases c <;> rfl

/-- Counterexample for C10 as stated: `selection` reads members, yet its
event trace contains no lock acquisition. -/
theorem selection_no_lock_cex :
    PopEvent.readMembers ∈ selectionEvents ∧
      PopEvent.lockAcquire ∉ selectionEvents := by
  decide

end NSGA2
